import Mathlib

/-!
Verification of the core algorithms of the polyglot-code-scanner repository:
temporal-coupling bucketing and filtering (src/coupling.rs), the rename-future
registry (src/git_file_future.rs), per-file git statistics (src/git.rs), the
git user dictionary (src/git_user_dictionary.rs) and the co-author parser
(src/git_logger.rs).  Rust u64/usize values are modelled as Nat; where u64
subtraction could wrap, theorems carry explicit no-underflow hypotheses so
that Nat arithmetic agrees exactly with the u64 arithmetic of the source.
-/

namespace PolyglotScanner

/-! ## coupling.rs: paths, common roots and the distance filter

`PathVec` is a relative path as a list of components (src/coupling.rs `PathVec`).
-/

abbrev PathVec := List String

/-- Embeds `common_roots` (src/coupling.rs lines 508-520): walk both component
lists in lockstep, counting while components are equal, stopping at the first
mismatch or when either list runs out. -/
def common_roots : PathVec → PathVec → Nat
  | c1 :: r1, c2 :: r2 => if c1 = c2 then common_roots r1 r2 + 1 else 0
  | _, _ => 0

/-- Embeds `relationship_distance_with_common_precalculated`
(src/coupling.rs lines 535-550). -/
def relationship_distance_with_common_precalculated
    (path1 path2 : PathVec) (common_root_count : Nat) : Option Nat :=
  if common_root_count = 0 then
    none
  else
    let depth1 := path1.length
    let depth2 := path2.length
    if depth1 < depth2 then
      some (depth2 - common_root_count)
    else
      some (depth1 - common_root_count)

/-- Embeds `relationship_distance` (src/coupling.rs lines 529-532). -/
def relationship_distance (path1 path2 : PathVec) : Option Nat :=
  relationship_distance_with_common_precalculated path1 path2 (common_roots path1 path2)

/-- Embeds `filter_file` (src/coupling.rs lines 552-570): the pair passes the
coupling filter unless it has too many common roots or is too close. -/
def filter_file (min_distance : Nat) (max_common_roots : Option Nat)
    (path1 path2 : PathVec) : Bool :=
  let common_root_count := common_roots path1 path2
  match max_common_roots with
  | some m =>
    if common_root_count > m then
      false
    else
      match relationship_distance_with_common_precalculated path1 path2 common_root_count with
      | some d => decide (d ≥ min_distance)
      | none => true
  | none =>
    match relationship_distance_with_common_precalculated path1 path2 common_root_count with
    | some d => decide (d ≥ min_distance)
    | none => true

/-! ## coupling.rs: activity bursts -/

/-- Embeds the `ActivityBurst` struct (src/coupling.rs lines 150-158);
`burst_end` models the Rust field `end` (inclusive), which is a Lean keyword. -/
structure ActivityBurst where
  start : Nat
  burst_end : Nat
  event_count : Nat
  deriving DecidableEq, Repr

/-- The loop state of `ActivityBurst::from_events`: the current burst is open
with first event `first`, last event `last` and `count` events so far; the
remaining events are processed in ascending order. -/
def ActivityBurst.fromEventsAux (min_activity_gap first last count : Nat) :
    List Nat → List ActivityBurst
  | [] => [⟨first, last, count⟩]
  | e :: rest =>
    if e - last ≤ min_activity_gap then
      ActivityBurst.fromEventsAux min_activity_gap first e (count + 1) rest
    else
      ⟨first, last, count⟩ ::
        ActivityBurst.fromEventsAux min_activity_gap e e 1 rest

/-- Embeds `ActivityBurst::from_events` (src/coupling.rs lines 161-198); the
input plays the role of the ascending iteration over the `BTreeSet<u64>`. -/
def ActivityBurst.from_events (events : List Nat) (min_activity_gap : Nat) :
    List ActivityBurst :=
  match events with
  | [] => []
  | e :: rest => ActivityBurst.fromEventsAux min_activity_gap e e 1 rest

/-! ## coupling.rs: configuration and bucket layout -/

/-- Embeds `CouplingConfig` (src/coupling.rs lines 407-425).  The Rust field
`min_coupling_ratio` is an `f64`; it is modelled as a rational number (the
values reaching it are small integers and CLI-supplied thresholds). -/
structure CouplingConfig where
  bucket_days : Nat
  min_bursts : Nat
  min_coupling_ratio : ℚ
  min_activity_gap : Nat
  coupling_time_distance : Nat
  min_distance : Nat
  max_common_roots : Option Nat

/-- Embeds `CouplingConfig::bucket_size` (src/coupling.rs lines 447-449). -/
def CouplingConfig.bucket_size (c : CouplingConfig) : Nat :=
  c.bucket_days * 24 * 60 * 60

/-- Embeds `CouplingConfig::buckets_for` (src/coupling.rs lines 450-456),
returning `(bucket_count, first_bucket_start)`. -/
def CouplingConfig.buckets_for (c : CouplingConfig) (earliest latest : Nat) :
    Nat × Nat :=
  let bucket_size := c.bucket_size
  let bucket_count := (latest - earliest) / bucket_size + 1
  let first_bucket_start := latest - bucket_size * bucket_count + 1
  (bucket_count, first_bucket_start)

/-- Embeds the `BucketingConfig` struct (src/coupling.rs lines 459-464). -/
structure BucketingConfig where
  bucket_size : Nat
  bucket_count : Nat
  first_bucket_start : Nat
  deriving DecidableEq, Repr

/-- Embeds `BucketingConfig::new` (src/coupling.rs lines 466-476). -/
def BucketingConfig.new (coupling_config : CouplingConfig)
    (earliest latest : Nat) : BucketingConfig :=
  let bucket_size := coupling_config.bucket_size
  let bucket_count := (latest - earliest) / bucket_size + 1
  let first_bucket_start := latest - bucket_size * bucket_count + 1
  ⟨bucket_size, bucket_count, first_bucket_start⟩

/-- Embeds `BucketingConfig::bucket_start` (src/coupling.rs lines 477-479). -/
def BucketingConfig.bucket_start (b : BucketingConfig) (bucket : Nat) : Nat :=
  b.first_bucket_start + bucket * b.bucket_size

/-- Embeds `BucketingConfig::bucket_for` (src/coupling.rs lines 480-489). -/
def BucketingConfig.bucket_for (b : BucketingConfig) (timestamp : Nat) :
    Option Nat :=
  if timestamp < b.first_bucket_start then
    none
  else
    let relative_ts := timestamp - b.first_bucket_start
    if relative_ts ≥ b.bucket_count * b.bucket_size then
      none
    else
      some (relative_ts / b.bucket_size)

/-! ## Basic facts about `common_roots` -/

theorem common_roots_le_left (p1 p2 : PathVec) : common_roots p1 p2 ≤ p1.length := by
  induction p1 generalizing p2 with
  | nil => cases p2 <;> simp [common_roots]
  | cons a r1 ih =>
    cases p2 with
    | nil => simp [common_roots]
    | cons b r2 =>
      by_cases h : a = b
      · simpa [common_roots, h] using ih r2
      · simp [common_roots, h]

theorem common_roots_le_right (p1 p2 : PathVec) : common_roots p1 p2 ≤ p2.length := by
  induction p1 generalizing p2 with
  | nil => cases p2 <;> simp [common_roots]
  | cons a r1 ih =>
    cases p2 with
    | nil => simp [common_roots]
    | cons b r2 =>
      by_cases h : a = b
      · simpa [common_roots, h] using ih r2
      · simp [common_roots, h]

theorem take_common_roots (p1 p2 : PathVec) :
    p1.take (common_roots p1 p2) = p2.take (common_roots p1 p2) := by
  induction p1 generalizing p2 with
  | nil => cases p2 <;> simp [common_roots]
  | cons a r1 ih =>
    cases p2 with
    | nil => simp [common_roots]
    | cons b r2 =>
      by_cases h : a = b
      · simp [common_roots, h, ih r2]
      · simp [common_roots, h]

theorem common_roots_maximal (p1 p2 : PathVec) (k : Nat)
    (h1 : k ≤ p1.length) (h2 : k ≤ p2.length) (ht : p1.take k = p2.take k) :
    k ≤ common_roots p1 p2 := by
  induction p1 generalizing p2 k with
  | nil => simp at h1; omega
  | cons a r1 ih =>
    cases p2 with
    | nil => simp at h2; omega
    | cons b r2 =>
      cases k with
      | zero => exact Nat.zero_le _
      | succ k =>
        simp only [List.take_succ_cons, List.cons.injEq] at ht
        have hk1 : k ≤ r1.length := by simpa using h1
        have hk2 : k ≤ r2.length := by simpa using h2
        simp only [common_roots, ht.1, if_true]
        exact Nat.succ_le_succ (ih r2 k hk1 hk2 ht.2)

/-- C4: the coupling pair filter keeps a pair of relative paths iff the pair
has few enough common roots (when `max_common_roots` is set) and is far enough
apart (when the relationship distance is defined); `common_roots` is the
length of the longest shared prefix of path components, and the distance is
`max(depth p1, depth p2) − common_roots`, undefined exactly when the paths
share no root. -/
theorem c4_filter_file_characterization (min_distance : Nat)
    (max_common_roots : Option Nat) (p1 p2 : PathVec) :
    (filter_file min_distance max_common_roots p1 p2 = true ↔
      ((max_common_roots = none ∨
          ∃ m, max_common_roots = some m ∧ common_roots p1 p2 ≤ m) ∧
        (relationship_distance p1 p2 = none ∨
          ∃ d, relationship_distance p1 p2 = some d ∧ min_distance ≤ d)))
    ∧ (relationship_distance p1 p2 = none ↔ common_roots p1 p2 = 0)
    ∧ (common_roots p1 p2 ≠ 0 →
        relationship_distance p1 p2 =
          some (max p1.length p2.length - common_roots p1 p2))
    ∧ p1.take (common_roots p1 p2) = p2.take (common_roots p1 p2)
    ∧ (∀ k, k ≤ p1.length → k ≤ p2.length → p1.take k = p2.take k →
        k ≤ common_roots p1 p2) := by
  refine ⟨?_, ?_, ?_, take_common_roots p1 p2, common_roots_maximal p1 p2⟩
  · unfold filter_file relationship_distance
      relationship_distance_with_common_precalculated
    rcases max_common_roots with _ | m <;>
      by_cases hc : common_roots p1 p2 = 0 <;>
        by_cases hd : p1.length < p2.length <;>
          simp [hc, hd]
  · unfold relationship_distance relationship_distance_with_common_precalculated
    by_cases hc : common_roots p1 p2 = 0 <;>
      by_cases hd : p1.length < p2.length <;> simp [hc, hd]
  · intro hc
    unfold relationship_distance relationship_distance_with_common_precalculated
    by_cases hd : p1.length < p2.length <;> simp [hc, hd] <;> omega

/-- Witness for C4 at concrete paths: `foo/bam` and `foo/bar/baz` have one
common root and relationship distance 2. -/
theorem c4_filter_file_characterization_witness :
    relationship_distance [("foo" : String), "bam"] [("foo" : String), "bar", "baz"] =
      some (max 2 3 - 1) :=
  (c4_filter_file_characterization 0 none
      [("foo" : String), "bam"] [("foo" : String), "bar", "baz"]).2.2.1 (by decide)

/-! ## Burst runs: a declarative view of `ActivityBurst::from_events`

`burstRuns` chunks the ascending event list into the maximal runs whose
internal gaps are at most `min_activity_gap`; `from_events` is proved equal to
mapping each run to its (first, last, length) burst. -/

def runsAux (g : Nat) (cur : List Nat) (last : Nat) : List Nat → List (List Nat)
  | [] => [cur]
  | e :: rest =>
    if e - last ≤ g then
      runsAux g (cur ++ [e]) e rest
    else
      cur :: runsAux g [e] e rest

def burstRuns (g : Nat) : List Nat → List (List Nat)
  | [] => []
  | e :: rest => runsAux g [e] e rest

def mkBurst (r : List Nat) : ActivityBurst :=
  ⟨r.headD 0, r.getLastD 0, r.length⟩

theorem fromEventsAux_eq_runsAux (g : Nat) (rest : List Nat) :
    ∀ cur last, cur ≠ [] → cur.getLast? = some last →
      ActivityBurst.fromEventsAux g (cur.headD 0) last cur.length rest =
        (runsAux g cur last rest).map mkBurst := by
  induction rest with
  | nil =>
    intro cur last hne hl
    simp [ActivityBurst.fromEventsAux, runsAux, mkBurst,
      List.getLastD_eq_getLast?, hl]
  | cons e rest ih =>
    intro cur last hne hl
    by_cases hgap : e - last ≤ g
    · have hcur : (cur ++ [e]).headD 0 = cur.headD 0 := by
        cases cur with
        | nil => exact absurd rfl hne
        | cons c cs => simp
      have hlen : (cur ++ [e]).length = cur.length + 1 := by simp
      have hlast : (cur ++ [e]).getLast? = some e := by
        simp [List.getLast?_append]
      have := ih (cur ++ [e]) e (by simp) hlast
      rw [hcur, hlen] at this
      simp only [ActivityBurst.fromEventsAux, runsAux, hgap, if_true]
      exact this
    · have := ih [e] e (by simp) (by simp)
      simp only [List.headD, List.length] at this
      simp only [ActivityBurst.fromEventsAux, runsAux, hgap, if_false, List.map]
      refine congrArg₂ _ ?_ this
      simp [mkBurst, List.getLastD_eq_getLast?, hl]

theorem runsAux_join (g : Nat) (rest : List Nat) :
    ∀ cur last, (runsAux g cur last rest).flatten = cur ++ rest := by
  induction rest with
  | nil => intro cur last; simp [runsAux]
  | cons e rest ih =>
    intro cur last
    by_cases hgap : e - last ≤ g <;> simp [runsAux, hgap, ih]

theorem runsAux_ne_nil (g : Nat) (rest : List Nat) :
    ∀ cur last, cur ≠ [] → ∀ r ∈ runsAux g cur last rest, r ≠ [] := by
  induction rest with
  | nil => intro cur last hne r hr; simp [runsAux] at hr; simpa [hr]
  | cons e rest ih =>
    intro cur last hne r hr
    by_cases hgap : e - last ≤ g
    · simp only [runsAux, hgap, if_true] at hr
      exact ih (cur ++ [e]) e (by simp) r hr
    · simp only [runsAux, hgap, if_false, List.mem_cons] at hr
      rcases hr with rfl | hr
      · exact hne
      · exact ih [e] e (by simp) r hr

theorem runsAux_head (g : Nat) (rest : List Nat) :
    ∀ cur last, cur ≠ [] →
      ∃ r rs, runsAux g cur last rest = r :: rs ∧ r.head? = cur.head? := by
  induction rest with
  | nil => intro cur last hne; exact ⟨cur, [], rfl, rfl⟩
  | cons e rest ih =>
    intro cur last hne
    by_cases hgap : e - last ≤ g
    · obtain ⟨r, rs, heq, hhead⟩ := ih (cur ++ [e]) e (by simp)
      refine ⟨r, rs, by simp [runsAux, hgap, heq], ?_⟩
      rw [hhead]
      cases cur with
      | nil => exact absurd rfl hne
      | cons c cs => simp
    · exact ⟨cur, runsAux g [e] e rest, by simp [runsAux, hgap], rfl⟩

theorem runsAux_chain_gap (g : Nat) (rest : List Nat) :
    ∀ cur last, cur.getLast? = some last →
      cur.Chain' (fun a b => a < b ∧ b - a ≤ g) →
      (last :: rest).Chain' (· < ·) →
      ∀ r ∈ runsAux g cur last rest, r.Chain' (fun a b => a < b ∧ b - a ≤ g) := by
  induction rest with
  | nil =>
    intro cur last _ hchain _ r hr
    simp only [runsAux, List.mem_singleton] at hr
    exact hr ▸ hchain
  | cons e rest ih =>
    intro cur last hl hchain hsorted r hr
    have hlt : last < e := (List.chain'_cons.mp hsorted).1
    have hrest : (e :: rest).Chain' (· < ·) := (List.chain'_cons.mp hsorted).2
    by_cases hgap : e - last ≤ g
    · simp only [runsAux, hgap, if_true] at hr
      have hchain2 : (cur ++ [e]).Chain' (fun a b => a < b ∧ b - a ≤ g) := by
        rw [List.chain'_append]
        refine ⟨hchain, List.chain'_singleton e, ?_⟩
        intro x hx y hy
        rw [hl] at hx
        simp at hx hy
        omega
      exact ih (cur ++ [e]) e (by simp [List.getLast?_append]) hchain2 hrest r hr
    · simp only [runsAux, hgap, if_false, List.mem_cons] at hr
      rcases hr with rfl | hr
      · exact hchain
      · exact ih [e] e (by simp) (List.chain'_singleton e) hrest r hr

theorem runsAux_chain_separated (g : Nat) (rest : List Nat) :
    ∀ cur last, cur.getLast? = some last →
      (runsAux g cur last rest).Chain'
        (fun r s => ∀ a ∈ r.getLast?, ∀ b ∈ s.head?, a + g < b) := by
  induction rest with
  | nil => intro cur last _; simp [runsAux]
  | cons e rest ih =>
    intro cur last hl
    by_cases hgap : e - last ≤ g
    · simp only [runsAux, hgap, if_true]
      exact ih (cur ++ [e]) e (by simp [List.getLast?_append])
    · simp only [runsAux, hgap, if_false]
      obtain ⟨r, rs, heq, hhead⟩ := runsAux_head g rest [e] e (by simp)
      rw [heq, List.chain'_cons]
      constructor
      · intro a ha b hb
        rw [hl] at ha
        rw [hhead] at hb
        simp at ha hb
        omega
      · rw [← heq]
        exact ih [e] e (by simp)

/-- C3: on an ascending event list, `from_events` returns exactly one burst
per maximal run of events whose successive gaps are at most
`min_activity_gap`: the runs concatenate back to the event list, are
nonempty, have internal gaps ≤ the threshold, consecutive runs are separated
by a gap exceeding the threshold, each burst is the (first, last, count)
summary of its run, and no events yield no bursts. -/
theorem c3_from_events_bursts (events : List Nat) (min_activity_gap : Nat)
    (hs : events.Chain' (· < ·)) :
    ActivityBurst.from_events events min_activity_gap =
      (burstRuns min_activity_gap events).map mkBurst
    ∧ (burstRuns min_activity_gap events).flatten = events
    ∧ (∀ r ∈ burstRuns min_activity_gap events,
        r ≠ [] ∧ r.Chain' (fun a b => a < b ∧ b - a ≤ min_activity_gap))
    ∧ (burstRuns min_activity_gap events).Chain'
        (fun r s => ∀ a ∈ r.getLast?, ∀ b ∈ s.head?, a + min_activity_gap < b)
    ∧ (events = [] ↔ ActivityBurst.from_events events min_activity_gap = [])
    ∧ (∀ b ∈ ActivityBurst.from_events events min_activity_gap,
        1 ≤ b.event_count) := by
  cases events with
  | nil => simp [ActivityBurst.from_events, burstRuns]
  | cons e rest =>
    have hmap : ActivityBurst.from_events (e :: rest) min_activity_gap =
        (burstRuns min_activity_gap (e :: rest)).map mkBurst := by
      have := fromEventsAux_eq_runsAux min_activity_gap rest [e] e (by simp) (by simp)
      simpa [ActivityBurst.from_events, burstRuns] using this
    have hjoin : (burstRuns min_activity_gap (e :: rest)).flatten = e :: rest := by
      simpa [burstRuns] using runsAux_join min_activity_gap rest [e] e
    have hne : ∀ r ∈ burstRuns min_activity_gap (e :: rest), r ≠ [] :=
      fun r hr => runsAux_ne_nil min_activity_gap rest [e] e (by simp) r hr
    refine ⟨hmap, hjoin, ?_, ?_, ?_, ?_⟩
    · intro r hr
      refine ⟨hne r hr, ?_⟩
      exact runsAux_chain_gap min_activity_gap rest [e] e (by simp)
        (List.chain'_singleton e) hs r hr
    · simpa [burstRuns] using
        runsAux_chain_separated min_activity_gap rest [e] e (by simp)
    · constructor
      · intro h; exact absurd h (by simp)
      · intro h
        rw [hmap] at h
        have := congrArg List.length h
        simp at this
        have hj := hjoin
        rw [this] at hj
        simp at hj
    · intro b hb
      rw [hmap] at hb
      obtain ⟨r, hr, rfl⟩ := List.mem_map.mp hb
      have := hne r hr
      simp [mkBurst]
      exact List.length_pos.mpr this

/-- Witness for C3 at the concrete event list of the repository's own unit
test (days shrunk to small numbers): gap 59, events with two runs. -/
theorem c3_from_events_bursts_witness :
    ActivityBurst.from_events [100, 110, 120, 180, 190] 59 =
      (burstRuns 59 [100, 110, 120, 180, 190]).map mkBurst :=
  (c3_from_events_bursts [100, 110, 120, 180, 190] 59 (by norm_num [List.chain'_cons])).1

/-! ## Bucket layout arithmetic (C1, C10) -/

theorem size_mul_count_bounds (s e l : Nat) (hs : 0 < s) (hse : s ≤ e)
    (hel : e ≤ l) :
    (l - e) + 1 ≤ s * ((l - e) / s + 1) ∧ s * ((l - e) / s + 1) ≤ l := by
  have hq : s * ((l - e) / s) + (l - e) % s = l - e := Nat.div_add_mod _ _
  have hr : (l - e) % s < s := Nat.mod_lt _ hs
  have hexp : s * ((l - e) / s + 1) = s * ((l - e) / s) + s := by ring
  rw [hexp]
  generalize hA : s * ((l - e) / s) = A at hq
  generalize hB : (l - e) % s = B at hq hr
  omega

/-- C1: for a non-empty timestamp collection with minimum `earliest` and
maximum `latest` (and timestamps at least one bucket width after the epoch,
so that the u64 subtraction in the source cannot wrap), `BucketingConfig::new`
produces `bucket_size = bucket_days * 86400`,
`bucket_count = (latest - earliest) / bucket_size + 1` and
`first_bucket_start = latest - bucket_size * bucket_count + 1`; consequently
`latest` is the last second of the last bucket, and
`CouplingConfig::buckets_for` returns the same `(count, start)` pair. -/
theorem c1_bucketing_layout (cc : CouplingConfig) (earliest latest : Nat)
    (hd : 0 < cc.bucket_days)
    (hsz : cc.bucket_days * 86400 ≤ earliest)
    (hle : earliest ≤ latest) :
    (BucketingConfig.new cc earliest latest).bucket_size =
        cc.bucket_days * 86400
    ∧ (BucketingConfig.new cc earliest latest).bucket_count =
        (latest - earliest) / (BucketingConfig.new cc earliest latest).bucket_size + 1
    ∧ (BucketingConfig.new cc earliest latest).first_bucket_start =
        latest -
          (BucketingConfig.new cc earliest latest).bucket_size *
            (BucketingConfig.new cc earliest latest).bucket_count + 1
    ∧ (BucketingConfig.new cc earliest latest).first_bucket_start +
          (BucketingConfig.new cc earliest latest).bucket_count *
            (BucketingConfig.new cc earliest latest).bucket_size - 1 = latest
    ∧ cc.buckets_for earliest latest =
        ((BucketingConfig.new cc earliest latest).bucket_count,
          (BucketingConfig.new cc earliest latest).first_bucket_start) := by
  have hsize : cc.bucket_size = cc.bucket_days * 86400 := by
    unfold CouplingConfig.bucket_size; ring
  have hs : 0 < cc.bucket_size := by rw [hsize]; positivity
  have hse : cc.bucket_size ≤ earliest := by rw [hsize]; exact hsz
  obtain ⟨hlow, hhigh⟩ :=
    size_mul_count_bounds cc.bucket_size earliest latest hs hse hle
  refine ⟨hsize, rfl, rfl, ?_, rfl⟩
  show latest - cc.bucket_size * ((latest - earliest) / cc.bucket_size + 1) + 1 +
      ((latest - earliest) / cc.bucket_size + 1) * cc.bucket_size - 1 = latest
  rw [Nat.mul_comm ((latest - earliest) / cc.bucket_size + 1) cc.bucket_size]
  generalize cc.bucket_size * ((latest - earliest) / cc.bucket_size + 1) = A
    at hlow hhigh ⊢
  omega

/-- Witness for C1 at `bucket_days = 20`, `earliest` = day 1 of 2020,
`latest` = day 22 (the repository's own test scenario). -/
theorem c1_bucketing_layout_witness :
    (BucketingConfig.new ⟨20, 1, 0, 3600, 3600, 0, none⟩
          1577923200 1579737600).first_bucket_start +
        (BucketingConfig.new ⟨20, 1, 0, 3600, 3600, 0, none⟩
            1577923200 1579737600).bucket_count *
          (BucketingConfig.new ⟨20, 1, 0, 3600, 3600, 0, none⟩
              1577923200 1579737600).bucket_size - 1 = 1579737600 :=
  (c1_bucketing_layout ⟨20, 1, 0, 3600, 3600, 0, none⟩ 1577923200 1579737600
      (by decide) (by decide) (by decide)).2.2.2.1

theorem fromEventsAux_start_mem (g : Nat) (rest : List Nat) :
    ∀ first last count b, b ∈ ActivityBurst.fromEventsAux g first last count rest →
      b.start = first ∨ b.start ∈ rest := by
  induction rest with
  | nil =>
    intro first last count b hb
    simp [ActivityBurst.fromEventsAux] at hb
    left; simp [hb]
  | cons e rest ih =>
    intro first last count b hb
    simp only [ActivityBurst.fromEventsAux] at hb
    by_cases hgap : e - last ≤ g
    · rw [if_pos hgap] at hb
      rcases ih first e (count + 1) b hb with h | h
      · exact Or.inl h
      · exact Or.inr (List.mem_cons_of_mem _ h)
    · rw [if_neg hgap] at hb
      rcases List.mem_cons.mp hb with rfl | hb2
      · exact Or.inl rfl
      · rcases ih e e 1 b hb2 with h | h
        · exact Or.inr (h ▸ List.mem_cons_self _ _)
        · exact Or.inr (List.mem_cons_of_mem _ h)

/-- C10: with the layout of C1, every timestamp between `earliest` and
`latest` falls into a bucket whose index is below `bucket_count`, so the
`unwrap` of `bucket_for(burst.start)` in `CouplingBuckets::new` cannot panic:
every burst start produced by `ActivityBurst::from_events` is one of the
events it was built from. -/
theorem c10_bucket_for_in_range (cc : CouplingConfig) (earliest latest t : Nat)
    (hd : 0 < cc.bucket_days)
    (hsz : cc.bucket_days * 86400 ≤ earliest)
    (hle : earliest ≤ latest) (ht1 : earliest ≤ t) (ht2 : t ≤ latest) :
    (∃ k, (BucketingConfig.new cc earliest latest).bucket_for t = some k ∧
        k < (BucketingConfig.new cc earliest latest).bucket_count)
    ∧ ∀ (events : List Nat) (g : Nat) (b : ActivityBurst),
        b ∈ ActivityBurst.from_events events g → b.start ∈ events := by
  constructor
  · have hsize : cc.bucket_size = cc.bucket_days * 86400 := by
      unfold CouplingConfig.bucket_size; ring
    have hs : 0 < cc.bucket_size := by rw [hsize]; positivity
    have hse : cc.bucket_size ≤ earliest := by rw [hsize]; exact hsz
    obtain ⟨hlow, hhigh⟩ :=
      size_mul_count_bounds cc.bucket_size earliest latest hs hse hle
    have hfirst : (BucketingConfig.new cc earliest latest).first_bucket_start =
        latest - cc.bucket_size * ((latest - earliest) / cc.bucket_size + 1) + 1 :=
      rfl
    have hcount : (BucketingConfig.new cc earliest latest).bucket_count =
        (latest - earliest) / cc.bucket_size + 1 := rfl
    have hbsize : (BucketingConfig.new cc earliest latest).bucket_size =
        cc.bucket_size := rfl
    set cfg := BucketingConfig.new cc earliest latest with hcfg
    have hfle : cfg.first_bucket_start ≤ t := by
      rw [hfirst]
      generalize hA : cc.bucket_size * ((latest - earliest) / cc.bucket_size + 1) = A
        at hlow hhigh
      omega
    have hnot : ¬ t < cfg.first_bucket_start := Nat.not_lt.mpr hfle
    have hrel : t - cfg.first_bucket_start < cfg.bucket_count * cfg.bucket_size := by
      rw [hfirst, hcount, hbsize,
        Nat.mul_comm ((latest - earliest) / cc.bucket_size + 1) cc.bucket_size]
      generalize hA : cc.bucket_size * ((latest - earliest) / cc.bucket_size + 1) = A
        at hlow hhigh
      omega
    refine ⟨(t - cfg.first_bucket_start) / cfg.bucket_size, ?_, ?_⟩
    · unfold BucketingConfig.bucket_for
      rw [if_neg hnot, if_neg (Nat.not_le.mpr hrel)]
    · have hs2 : 0 < cfg.bucket_size := by rw [hbsize]; exact hs
      rw [Nat.div_lt_iff_lt_mul hs2]
      exact hrel
  · intro events g b hb
    cases events with
    | nil => simp [ActivityBurst.from_events] at hb
    | cons e rest =>
      simp only [ActivityBurst.from_events] at hb
      rcases fromEventsAux_start_mem g rest e e 1 b hb with h | h
      · exact h ▸ List.mem_cons_self _ _
      · exact List.mem_cons_of_mem _ h

/-- Witness for C10 at the same concrete layout as the C1 witness, with
`t` = day 10 of 2020. -/
theorem c10_bucket_for_in_range_witness :
    ∃ k, (BucketingConfig.new ⟨20, 1, 0, 3600, 3600, 0, none⟩
          1577923200 1579737600).bucket_for 1578700800 = some k ∧
        k < (BucketingConfig.new ⟨20, 1, 0, 3600, 3600, 0, none⟩
            1577923200 1579737600).bucket_count :=
  (c10_bucket_for_in_range ⟨20, 1, 0, 3600, 3600, 0, none⟩
      1577923200 1579737600 1578700800 (by decide) (by decide) (by decide)
      (by decide) (by decide)).1

/-! ## coupling.rs: per-bucket coupling data and threshold filtering (C2) -/

/-- Embeds the `Coupling` struct (src/coupling.rs lines 203-208); the
`HashMap<Rc<PathVec>, u64>` of coupled files is modelled as an association
list of (path, count) pairs. -/
structure Coupling where
  name : PathVec
  activity_bursts : Nat
  coupled_files : List (PathVec × Nat)
  deriving DecidableEq, Repr

/-- Embeds `Coupling::filter_by_ratio` (src/coupling.rs lines 233-247): keep
a coupled file iff its count divided by the activity bursts reaches
`min_coupling_ratio`.  The Rust `f64` division is modelled exactly in ℚ. -/
def Coupling.filter_by_ratio (c : Coupling) (min_coupling_ratio : ℚ) : Coupling :=
  { name := c.name
    activity_bursts := c.activity_bursts
    coupled_files := c.coupled_files.filter
      (fun p => decide ((p.2 : ℚ) / (c.activity_bursts : ℚ) ≥ min_coupling_ratio)) }

/-- Embeds the `CouplingBucket` struct (src/coupling.rs lines 250-255); the
couplings map is modelled by its list of values (keys duplicate the `name`
field). -/
structure CouplingBucket where
  bucket_start : Nat
  bucket_size : Nat
  couplings : List Coupling
  deriving DecidableEq, Repr

/-- Embeds `CouplingBucket::filter_by` (src/coupling.rs lines 280-287): drop
source files with too few activity bursts, then filter each survivor's
coupled files by ratio. -/
def CouplingBucket.filter_by (b : CouplingBucket) (min_bursts : Nat)
    (min_coupling_ratio : ℚ) : CouplingBucket :=
  { b with
    couplings :=
      (b.couplings.filter (fun c => decide (c.activity_bursts ≥ min_bursts))).map
        (fun c => c.filter_by_ratio min_coupling_ratio) }

/-- C2: after `CouplingBucket::filter_by(min_bursts, min_coupling_ratio)`,
every remaining source file has `activity_bursts ≥ min_bursts` and every
retained coupled file has `count / activity_bursts ≥ min_coupling_ratio`;
membership in the output is exactly membership in the input with the
thresholds met, so every violating entry is dropped. -/
theorem c2_filter_by_thresholds (b : CouplingBucket) (min_bursts : Nat)
    (min_coupling_ratio : ℚ) :
    (∀ c ∈ (b.filter_by min_bursts min_coupling_ratio).couplings,
        min_bursts ≤ c.activity_bursts ∧
        ∀ p ∈ c.coupled_files,
          min_coupling_ratio ≤ (p.2 : ℚ) / (c.activity_bursts : ℚ))
    ∧ (∀ c, c ∈ (b.filter_by min_bursts min_coupling_ratio).couplings ↔
        ∃ c0 ∈ b.couplings, min_bursts ≤ c0.activity_bursts ∧
          c = c0.filter_by_ratio min_coupling_ratio)
    ∧ (∀ c0 : Coupling,
        (c0.filter_by_ratio min_coupling_ratio).name = c0.name ∧
        (c0.filter_by_ratio min_coupling_ratio).activity_bursts =
          c0.activity_bursts ∧
        ∀ p, p ∈ (c0.filter_by_ratio min_coupling_ratio).coupled_files ↔
          p ∈ c0.coupled_files ∧
            min_coupling_ratio ≤ (p.2 : ℚ) / (c0.activity_bursts : ℚ)) := by
  have hmem3 : ∀ c0 : Coupling, ∀ p,
      p ∈ (c0.filter_by_ratio min_coupling_ratio).coupled_files ↔
        p ∈ c0.coupled_files ∧
          min_coupling_ratio ≤ (p.2 : ℚ) / (c0.activity_bursts : ℚ) := by
    intro c0 p
    simp [Coupling.filter_by_ratio, List.mem_filter, ge_iff_le]
  have hmem2 : ∀ c, c ∈ (b.filter_by min_bursts min_coupling_ratio).couplings ↔
      ∃ c0 ∈ b.couplings, min_bursts ≤ c0.activity_bursts ∧
        c = c0.filter_by_ratio min_coupling_ratio := by
    intro c
    simp only [CouplingBucket.filter_by, List.mem_map, List.mem_filter,
      decide_eq_true_eq, ge_iff_le]
    constructor
    · rintro ⟨c0, ⟨hc0, hb0⟩, rfl⟩
      exact ⟨c0, hc0, hb0, rfl⟩
    · rintro ⟨c0, hc0, hb0, rfl⟩
      exact ⟨c0, ⟨hc0, hb0⟩, rfl⟩
  refine ⟨?_, hmem2, fun c0 => ⟨rfl, rfl, hmem3 c0⟩⟩
  intro c hc
  obtain ⟨c0, _, hb0, rfl⟩ := (hmem2 c).mp hc
  refine ⟨hb0, ?_⟩
  intro p hp
  exact ((hmem3 c0 p).mp hp).2

/-- Witness for C2: file `foo` with 4 bursts keeps coupled file `bar`
(count 2, ratio 1/2) under `min_coupling_ratio = 1/2`. -/
theorem c2_filter_by_thresholds_witness :
    ((["bar"], 2) : PathVec × Nat) ∈
      ((⟨["foo"], 4, [(["bar"], 2)]⟩ : Coupling).filter_by_ratio
          (1 / 2)).coupled_files :=
  (((c2_filter_by_thresholds ⟨0, 10, []⟩ 2 (1 / 2)).2.2
        ⟨["foo"], 4, [(["bar"], 2)]⟩).2.2 ((["bar"], 2))).mpr
    ⟨by decide, by norm_num⟩

/-! ## git_file_future.rs: the rename-future registry (C5)

Commit ids (`git2::Oid`) are modelled as naturals, paths (`PathBuf`) as
component lists; the `HashMap<Oid, RevChange>` is modelled as a function
`Oid → Option RevChange` (`none` = absent key), and the per-commit
`HashMap<PathBuf, FileNameChange>` as a function updated entry by entry, so
that later entries overwrite earlier ones exactly as `HashMap::extend`. -/

abbrev Oid := Nat

abbrev GitPath := List String

/-- Embeds `FileNameChange` (src/git_file_future.rs lines 19-23). -/
inductive FileNameChange where
  | Renamed (new_name : GitPath)
  | Deleted
  deriving DecidableEq, Repr

/-- Embeds `RevChange` (src/git_file_future.rs lines 12-17). -/
structure RevChange where
  files : GitPath → Option FileNameChange
  children : List Oid

/-- Embeds `RevChange::new` (src/git_file_future.rs lines 25-32). -/
def RevChange.new : RevChange := ⟨fun _ => none, []⟩

abbrev GitFileFutureRegistry := Oid → Option RevChange

/-- Embeds `GitFileFutureRegistry::new` (src/git_file_future.rs lines 35-39). -/
def GitFileFutureRegistry.new : GitFileFutureRegistry := fun _ => none

/-- `HashMap::extend` on the files map: each entry overwrites the key it
names, later entries winning. -/
def extendFiles (f : GitPath → Option FileNameChange)
    (entries : List (GitPath × FileNameChange)) : GitPath → Option FileNameChange :=
  entries.foldl (fun g e => fun p => if p = e.1 then some e.2 else g p) f

/-- Embeds `GitFileFutureRegistry::register` (src/git_file_future.rs lines
41-56): record the commit's own file changes, then push the commit as a
child of each of its parents (in the reported parent order). -/
def GitFileFutureRegistry.register (reg : GitFileFutureRegistry) (id : Oid)
    (parent_ids : List Oid) (file_changes : List (GitPath × FileNameChange)) :
    GitFileFutureRegistry :=
  let entry := (reg id).getD RevChange.new
  let reg1 : GitFileFutureRegistry := fun i =>
    if i = id then some ⟨extendFiles entry.files file_changes, entry.children⟩
    else reg i
  parent_ids.foldl
    (fun r parent_id =>
      let pentry := (r parent_id).getD RevChange.new
      fun i =>
        if i = parent_id then some ⟨pentry.files, pentry.children ++ [id]⟩
        else r i)
    reg1

/-- One step of the `final_name` loop: apply the commit's change for the
current path (`Renamed` updates it, `Deleted` kills it, no entry leaves it). -/
def applyChange (rc : RevChange) (p : GitPath) : Option GitPath :=
  match rc.files p with
  | some (FileNameChange.Renamed new_name) => some new_name
  | some FileNameChange.Deleted => none
  | none => some p

/-- Embeds `GitFileFutureRegistry::final_name` (src/git_file_future.rs lines
60-80).  The Rust loop is modelled with explicit fuel; the outer `none`
covers both fuel exhaustion and the `unwrap` panic on an unregistered commit,
neither of which occurs on a registered DAG with enough fuel. -/
def finalName (reg : GitFileFutureRegistry) (fuel : Nat) (ref_id : Oid)
    (file : GitPath) : Option (Option GitPath) :=
  match fuel with
  | 0 => none
  | fuel + 1 =>
    match reg ref_id with
    | none => none
    | some current_change =>
      match applyChange current_change file with
      | none => some none
      | some current_name =>
        match current_change.children.head? with
        | some first_child => finalName reg fuel first_child current_name
        | none => some (some current_name)

/-- The main line from a commit: the list of rev-changes reached by always
following the first child, ending at a commit with no children. -/
def mainLine (reg : GitFileFutureRegistry) : Nat → Oid → Option (List RevChange)
  | 0, _ => none
  | fuel + 1, id =>
    match reg id with
    | none => none
    | some rc =>
      match rc.children.head? with
      | none => some [rc]
      | some c => (mainLine reg fuel c).map (rc :: ·)

/-- Folding the per-commit changes along a chain of commits, `Deleted`
short-circuiting to `none`. -/
def applyAll : List RevChange → GitPath → Option GitPath
  | [], p => some p
  | rc :: rest, p =>
    match applyChange rc p with
    | none => none
    | some q => applyAll rest q

/-- C5: `final_name` follows the registered first-child (main) line: whenever
that line is defined (`mainLine` returns a chain, which is nonempty and ends
at a childless commit, the youngest main-line descendant), `final_name`
returns exactly the fold of the per-commit changes along the chain — so a
chain of renames yields the name at the youngest main-line descendant and a
deletion on the line yields `None`. -/
theorem c5_final_name_follows_main_line (reg : GitFileFutureRegistry)
    (fuel : Nat) :
    ∀ id chain, mainLine reg fuel id = some chain →
      (∀ p, finalName reg fuel id p = some (applyAll chain p))
      ∧ chain ≠ []
      ∧ (∀ rc, chain.getLast? = some rc → rc.children = []) := by
  induction fuel with
  | zero => intro id chain h; simp [mainLine] at h
  | succ fuel ih =>
    intro id chain h
    simp only [mainLine] at h
    cases hreg : reg id with
    | none => rw [hreg] at h; exact absurd h (by simp)
    | some rc =>
      rw [hreg] at h
      cases hch : rc.children.head? with
      | none =>
        simp only [hch] at h
        obtain rfl : [rc] = chain := by simpa using h
        refine ⟨?_, by simp, ?_⟩
        · intro p
          simp only [finalName, hreg]
          cases happ : applyChange rc p with
          | none => simp [applyAll, happ]
          | some q => simp [applyAll, happ, hch]
        · intro rc2 hlast
          obtain rfl : rc = rc2 := by simpa using hlast
          exact List.head?_eq_none_iff.mp hch
      | some c =>
        simp only [hch] at h
        cases hml : mainLine reg fuel c with
        | none => rw [hml] at h; exact absurd h (by simp)
        | some chain2 =>
          rw [hml] at h
          obtain rfl : rc :: chain2 = chain := by simpa using h
          obtain ⟨h1, h2, h3⟩ := ih c chain2 hml
          refine ⟨?_, by simp, ?_⟩
          · intro p
            simp only [finalName, hreg]
            cases happ : applyChange rc p with
            | none => simp [applyAll, happ]
            | some q => simp [applyAll, happ, hch, h1 q]
          · intro rc2 hlast
            apply h3
            cases chain2 with
            | nil => exact absurd rfl h2
            | cons a l => simpa using hlast

/-- A concrete registry: commit 2 (renames b to c, no children) is the child
of commit 1 (renames a to b), registered newest-first as the log reader does. -/
def regW : GitFileFutureRegistry :=
  (GitFileFutureRegistry.new.register 2 [1]
      [(["b"], FileNameChange.Renamed ["c"])]).register 1 []
    [(["a"], FileNameChange.Renamed ["b"])]

def chainW : List RevChange := (mainLine regW 2 1).getD []

/-- Witness for C5 on the concrete two-commit registry `regW`: the main line
from commit 1 exists, `final_name` equals the folded changes on it, and the
rename chain a→b→c resolves to c. -/
theorem c5_final_name_follows_main_line_witness :
    mainLine regW 2 1 = some chainW
    ∧ finalName regW 2 1 ["a"] = some (applyAll chainW ["a"])
    ∧ finalName regW 2 1 ["a"] = some (some ["c"]) :=
  ⟨rfl, (c5_final_name_follows_main_line regW 2 1 chainW rfl).1 ["a"], rfl⟩

/-! ## git_logger.rs / git_user_dictionary.rs: users and the dictionary (C8)

The `HashMap<User, usize>` of lower-cased users is modelled as an association
list searched front-first; inserting prepends (the inserted key is never
already present, so the position is irrelevant to lookups). -/

/-- Embeds `User` (src/git_logger.rs lines 70-82). -/
structure User where
  name : Option String
  email : Option String
  deriving DecidableEq, Repr

/-- Character-wise lower-casing of a string (the model of Rust
`str::to_lowercase`, exact on the ASCII range). -/
def lowerString (s : String) : String := ⟨s.data.map Char.toLower⟩

/-- Modelled from the spec: `User::as_lower_case` is called from
src/git_user_dictionary.rs but its definition is not among the provided
sources.  Per the spec (§3: "Equality and hashing are case-insensitive on
both fields"), the lower-cased view lower-cases both the name and the email
field. -/
def User.as_lower_case (u : User) : User :=
  ⟨u.name.map lowerString, u.email.map lowerString⟩

/-- Embeds `GitUserDictionary` (src/git_user_dictionary.rs lines 7-12). -/
structure GitUserDictionary where
  next_id : Nat
  lower_users : List (User × Nat)
  users : List User
  deriving DecidableEq, Repr

/-- Embeds `GitUserDictionary::new` (src/git_user_dictionary.rs lines 14-21). -/
def GitUserDictionary.new : GitUserDictionary := ⟨0, [], []⟩

/-- Association-list lookup, front first (models `HashMap::get`). -/
def lookupUser (l : List (User × Nat)) (u : User) : Option Nat :=
  match l with
  | [] => none
  | e :: rest => if e.1 = u then some e.2 else lookupUser rest u

/-- Embeds `GitUserDictionary::register` (src/git_user_dictionary.rs lines
22-34): look the lower-cased user up; if present return its id, else assign
`next_id`, record the lower-cased key and store the original casing. -/
def GitUserDictionary.register (d : GitUserDictionary) (user : User) :
    Nat × GitUserDictionary :=
  let lower_user := user.as_lower_case
  match lookupUser d.lower_users lower_user with
  | some id => (id, d)
  | none =>
    (d.next_id,
      ⟨d.next_id + 1, (lower_user, d.next_id) :: d.lower_users,
        d.users ++ [user]⟩)

/-- A sequence of `register` calls, keeping only the dictionary. -/
def registerList (d : GitUserDictionary) (us : List User) : GitUserDictionary :=
  us.foldl (fun d u => (d.register u).2) d

theorem lookupUser_some_mem {l : List (User × Nat)} {u : User} {j : Nat}
    (h : lookupUser l u = some j) : (u, j) ∈ l := by
  induction l with
  | nil => simp [lookupUser] at h
  | cons e rest ih =>
    by_cases he : e.1 = u
    · simp only [lookupUser, he, if_true, Option.some.injEq] at h
      have : e = (u, j) := by
        cases e; simp_all
      exact this ▸ List.mem_cons_self e rest
    · simp only [lookupUser, he, if_false] at h
      exact List.mem_cons_of_mem e (ih h)

theorem lookupUser_none_iff {l : List (User × Nat)} {u : User} :
    lookupUser l u = none ↔ ∀ e ∈ l, e.1 ≠ u := by
  induction l with
  | nil => simp [lookupUser]
  | cons e rest ih =>
    by_cases he : e.1 = u
    · simp [lookupUser, he]
    · simp only [lookupUser, he, if_false, List.mem_cons]
      constructor
      · intro h f hf
        rcases hf with rfl | hf
        · exact he
        · exact ih.mp h f hf
      · intro h
        exact ih.mpr (fun f hf => h f (Or.inr hf))

theorem snd_inj_of_nodup {l : List (User × Nat)} (h : (l.map Prod.snd).Nodup)
    {a b : User × Nat} (ha : a ∈ l) (hb : b ∈ l) (he : a.2 = b.2) : a = b := by
  induction l with
  | nil => simp at ha
  | cons e rest ih =>
    simp only [List.map_cons, List.nodup_cons, List.mem_map] at h
    rcases List.mem_cons.mp ha with rfl | ha2 <;>
      rcases List.mem_cons.mp hb with rfl | hb2
    · rfl
    · exact absurd ⟨b, hb2, he.symm⟩ h.1
    · exact absurd ⟨a, ha2, he⟩ h.1
    · exact ih h.2 ha2 hb2

/-- The invariant tying the lower-cased index to the display-user store. -/
structure DictInv (d : GitUserDictionary) : Prop where
  len : d.users.length = d.next_id
  entries : ∀ e ∈ d.lower_users,
    ∃ w, d.users.get? e.2 = some w ∧ w.as_lower_case = e.1
  keysNodup : (d.lower_users.map Prod.fst).Nodup
  idsNodup : (d.lower_users.map Prod.snd).Nodup

theorem dictInv_new : DictInv GitUserDictionary.new :=
  ⟨rfl, by simp [GitUserDictionary.new], by simp [GitUserDictionary.new],
    by simp [GitUserDictionary.new]⟩

theorem DictInv.id_lt {d : GitUserDictionary} (hd : DictInv d)
    {e : User × Nat} (he : e ∈ d.lower_users) : e.2 < d.next_id := by
  obtain ⟨w, hw, _⟩ := hd.entries e he
  obtain ⟨hlt, _⟩ := List.get?_eq_some.mp hw
  rw [hd.len] at hlt
  exact hlt


theorem dictInv_register {d : GitUserDictionary} (hd : DictInv d) (u : User) :
    DictInv (d.register u).2 := by
  unfold GitUserDictionary.register
  cases hl : lookupUser d.lower_users u.as_lower_case with
  | some id => simpa [hl] using hd
  | none =>
    simp only [hl]
    refine ⟨by simp [hd.len], ?_, ?_, ?_⟩
    · intro e he
      rcases List.mem_cons.mp he with rfl | he2
      · refine ⟨u, ?_, rfl⟩
        have : d.next_id = d.users.length := hd.len.symm
        simp only [this]
        exact List.get?_concat_length d.users u
      · obtain ⟨w, hw, hwl⟩ := hd.entries e he2
        refine ⟨w, ?_, hwl⟩
        rw [← hw]
        exact List.get?_append (by
          obtain ⟨hlt, _⟩ := List.get?_eq_some.mp hw
          exact hlt)
    · rw [List.map_cons, List.nodup_cons]
      refine ⟨?_, hd.keysNodup⟩
      intro hmem
      obtain ⟨e, he, hfst⟩ := List.mem_map.mp hmem
      exact lookupUser_none_iff.mp hl e he hfst
    · rw [List.map_cons, List.nodup_cons]
      refine ⟨?_, hd.idsNodup⟩
      intro hmem
      obtain ⟨e, he, hsnd⟩ := List.mem_map.mp hmem
      have := hd.id_lt he
      omega

theorem register_lookup_self {d : GitUserDictionary} (u : User) :
    lookupUser ((d.register u).2).lower_users u.as_lower_case =
      some (d.register u).1 := by
  unfold GitUserDictionary.register
  cases hl : lookupUser d.lower_users u.as_lower_case with
  | some id => simpa [hl] using hl
  | none => simp [hl, lookupUser]

theorem register_preserves_lookup {d : GitUserDictionary} {k : User} {j : Nat}
    (h : lookupUser d.lower_users k = some j) (v : User) :
    lookupUser ((d.register v).2).lower_users k = some j := by
  unfold GitUserDictionary.register
  cases hl : lookupUser d.lower_users v.as_lower_case with
  | some id => simpa [hl] using h
  | none =>
    simp only [hl, lookupUser]
    have hne : v.as_lower_case ≠ k := by
      intro he
      rw [he] at hl
      rw [hl] at h
      exact Option.noConfusion h
    rw [if_neg hne]
    exact h

theorem register_preserves_users {d : GitUserDictionary} {i : Nat} {w : User}
    (h : d.users.get? i = some w) (v : User) :
    ((d.register v).2).users.get? i = some w := by
  unfold GitUserDictionary.register
  cases hl : lookupUser d.lower_users v.as_lower_case with
  | some id => simpa [hl] using h
  | none =>
    simp only [hl]
    rw [← h]
    exact List.get?_append (by
      obtain ⟨hlt, _⟩ := List.get?_eq_some.mp h
      exact hlt)

theorem dictInv_registerList {d : GitUserDictionary} (hd : DictInv d)
    (vs : List User) : DictInv (registerList d vs) := by
  induction vs generalizing d with
  | nil => exact hd
  | cons v vs ih => exact ih (dictInv_register hd v)

theorem registerList_preserves_lookup {d : GitUserDictionary} {k : User}
    {j : Nat} (h : lookupUser d.lower_users k = some j) (vs : List User) :
    lookupUser (registerList d vs).lower_users k = some j := by
  induction vs generalizing d with
  | nil => exact h
  | cons v vs ih => exact ih (register_preserves_lookup h v)

theorem registerList_preserves_users {d : GitUserDictionary} {i : Nat}
    {w : User} (h : d.users.get? i = some w) (vs : List User) :
    (registerList d vs).users.get? i = some w := by
  induction vs generalizing d with
  | nil => exact h
  | cons v vs ih => exact ih (register_preserves_users h v)

theorem register_id_eq_iff {d : GitUserDictionary} (hd : DictInv d)
    (u1 u2 : User) :
    (d.register u1).1 = ((d.register u1).2.register u2).1 ↔
      u1.as_lower_case = u2.as_lower_case := by
  cases h1 : lookupUser d.lower_users u1.as_lower_case with
  | some j =>
    have hd1 : d.register u1 = (j, d) := by
      unfold GitUserDictionary.register
      simp [h1]
    rw [hd1]
    cases h2 : lookupUser d.lower_users u2.as_lower_case with
    | some j2 =>
      have hd2 : d.register u2 = (j2, d) := by
        unfold GitUserDictionary.register
        simp [h2]
      rw [hd2]
      constructor
      · intro hj
        have m1 := lookupUser_some_mem h1
        have m2 := lookupUser_some_mem h2
        have heq := snd_inj_of_nodup hd.idsNodup m1 m2 (by simpa using hj)
        simpa using congrArg Prod.fst heq
      · intro he
        rw [he] at h1
        rw [h1] at h2
        simpa using h2
    | none =>
      have hd2 : (d.register u2).1 = d.next_id := by
        unfold GitUserDictionary.register
        simp [h2]
      rw [hd2]
      have hj : j < d.next_id := hd.id_lt (lookupUser_some_mem h1)
      constructor
      · intro h
        simp at h
        omega
      · intro he
        rw [he] at h1
        rw [h1] at h2
        exact absurd h2 (by simp)
  | none =>
    have hd1 : d.register u1 =
        (d.next_id,
          ⟨d.next_id + 1, (u1.as_lower_case, d.next_id) :: d.lower_users,
            d.users ++ [u1]⟩) := by
      unfold GitUserDictionary.register
      simp [h1]
    rw [hd1]
    by_cases he : u1.as_lower_case = u2.as_lower_case
    · have hlk : lookupUser
          ((u1.as_lower_case, d.next_id) :: d.lower_users) u2.as_lower_case =
            some d.next_id := by
        simp [lookupUser, he]
      unfold GitUserDictionary.register
      simp only [hlk]
      simp [he]
    · have hlk : lookupUser
          ((u1.as_lower_case, d.next_id) :: d.lower_users) u2.as_lower_case =
            lookupUser d.lower_users u2.as_lower_case := by
        simp [lookupUser, he]
      cases h2 : lookupUser d.lower_users u2.as_lower_case with
      | some j2 =>
        unfold GitUserDictionary.register
        simp only [hlk, h2]
        have hj : j2 < d.next_id := hd.id_lt (lookupUser_some_mem h2)
        constructor
        · intro h
          exact absurd h (by omega)
        · intro hcon
          exact absurd hcon he
      | none =>
        unfold GitUserDictionary.register
        simp only [hlk, h2]
        constructor
        · intro h
          exact absurd h (by omega)
        · intro hcon
          exact absurd hcon he

theorem register_fst_some {d : GitUserDictionary} {u : User} {j : Nat}
    (h : lookupUser d.lower_users u.as_lower_case = some j) :
    (d.register u).1 = j := by
  unfold GitUserDictionary.register
  simp [h]

theorem register_fst_none {d : GitUserDictionary} {u : User}
    (h : lookupUser d.lower_users u.as_lower_case = none) :
    (d.register u).1 = d.next_id := by
  unfold GitUserDictionary.register
  simp [h]

theorem register_snd_users_none {d : GitUserDictionary} {u : User}
    (h : lookupUser d.lower_users u.as_lower_case = none) :
    ((d.register u).2).users = d.users ++ [u] := by
  unfold GitUserDictionary.register
  simp [h]

/-- C8: over any dictionary reached by a sequence of `register` calls from
`new`, registering `u1` and then `u2` yields equal ids iff `u1` and `u2`
agree case-insensitively on both name and email; the id of `u1` is stable
under any further registrations; and when `u1` is first seen, the display
user stored at its id is exactly `u1` (first-seen casing), also after any
further registrations. -/
theorem c8_register_case_insensitive (us vs : List User) (u1 u2 : User) :
    (((registerList GitUserDictionary.new us).register u1).1 =
        (((registerList GitUserDictionary.new us).register u1).2.register u2).1 ↔
      u1.as_lower_case = u2.as_lower_case)
    ∧ ((registerList ((registerList GitUserDictionary.new us).register u1).2
          vs).register u1).1 =
        ((registerList GitUserDictionary.new us).register u1).1
    ∧ (lookupUser (registerList GitUserDictionary.new us).lower_users
          u1.as_lower_case = none →
        (registerList ((registerList GitUserDictionary.new us).register u1).2
              vs).users.get?
            ((registerList GitUserDictionary.new us).register u1).1 =
          some u1) := by
  have hD : DictInv (registerList GitUserDictionary.new us) :=
    dictInv_registerList dictInv_new us
  refine ⟨register_id_eq_iff hD u1 u2, ?_, ?_⟩
  · exact register_fst_some
      (registerList_preserves_lookup (register_lookup_self u1) vs)
  · intro h
    have hget : (((registerList GitUserDictionary.new us).register u1).2).users.get?
        (((registerList GitUserDictionary.new us).register u1).1) = some u1 := by
      rw [register_fst_none h, register_snd_users_none h, ← hD.len]
      exact List.get?_concat_length _ _
    exact registerList_preserves_users hget vs

/-- Witness for C8: `Jane` and `jane` (same email casing aside) receive the
same id when registered in sequence on a fresh dictionary. -/
theorem c8_register_case_insensitive_witness :
    ((registerList GitUserDictionary.new []).register
        ⟨some ("Jane"), some ("JaneDoe@gmail.com")⟩).1 =
      (((registerList GitUserDictionary.new []).register
            ⟨some ("Jane"), some ("JaneDoe@gmail.com")⟩).2.register
          ⟨some ("jane"), some ("janeDoe@gmail.com")⟩).1 :=
  (c8_register_case_insensitive [] []
        ⟨some ("Jane"), some ("JaneDoe@gmail.com")⟩
        ⟨some ("jane"), some ("janeDoe@gmail.com")⟩).1.mpr (by decide)

/-! ## git.rs: per-file statistics — creation date (C6) and activity (C7) -/

/-- Embeds `CommitChange` (src/git_logger.rs lines 99-106). -/
inductive CommitChange where
  | Add
  | Rename
  | Delete
  | Modify
  | Copied
  deriving DecidableEq, Repr

/-- Embeds `FileHistoryEntry` (src/git_file_history.rs lines 16-26). -/
structure FileHistoryEntry where
  id : String
  committer : User
  commit_time : Nat
  author : User
  author_time : Nat
  co_authors : List User
  change : CommitChange
  lines_added : Nat
  lines_deleted : Nat
  deriving DecidableEq, Repr

/-- The model of `Iterator::min` on a list of naturals. -/
def listMin : List Nat → Option Nat
  | [] => none
  | x :: xs =>
    match listMin xs with
    | none => some x
    | some m => some (min x m)

theorem listMin_eq_none_iff (l : List Nat) : listMin l = none ↔ l = [] := by
  cases l with
  | nil => simp [listMin]
  | cons x xs =>
    simp only [listMin]
    cases listMin xs <;> simp

theorem listMin_mem {l : List Nat} {m : Nat} (h : listMin l = some m) :
    m ∈ l := by
  induction l generalizing m with
  | nil => simp [listMin] at h
  | cons x xs ih =>
    simp only [listMin] at h
    cases hm : listMin xs with
    | none =>
      rw [hm] at h
      simp at h
      simp [h]
    | some m2 =>
      rw [hm] at h
      simp at h
      rcases Nat.le_total x m2 with hle | hle
      · have hx : m = x := by rw [Nat.min_eq_left hle] at h; omega
        simp [hx]
      · have hx : m = m2 := by rw [Nat.min_eq_right hle] at h; omega
        subst hx
        exact List.mem_cons_of_mem _ (ih hm)

theorem listMin_le {l : List Nat} {m : Nat} (h : listMin l = some m) :
    ∀ x ∈ l, m ≤ x := by
  induction l generalizing m with
  | nil => simp [listMin] at h
  | cons x xs ih =>
    simp only [listMin] at h
    cases hm : listMin xs with
    | none =>
      rw [hm] at h
      simp at h
      intro y hy
      have hxs : xs = [] := (listMin_eq_none_iff xs).mp hm
      subst hxs
      simp at hy
      omega
    | some m2 =>
      rw [hm] at h
      simp at h
      intro y hy
      rcases List.mem_cons.mp hy with rfl | hy2
      · rw [← h]
        exact Nat.min_le_left _ _
      · exact le_trans (h ▸ Nat.min_le_right x m2) (ih hm y hy2)

/-- Embeds the `creation_date` computation of `GitHistories::stats_from_history`
(src/git.rs lines 217-235): the minimum author time over `Add` entries,
demoted to `None` when some entry is strictly earlier.  The inner
`first_date.unwrap()` is only evaluated when an `Add` entry exists, which
forces the history to be nonempty; the unreachable `none` branch is mapped to
the same value. -/
def creationDate (history : List FileHistoryEntry) : Option Nat :=
  let first_date := listMin (history.map (fun h => h.author_time))
  let creation_date := listMin
    ((history.filter (fun h => decide (h.change = CommitChange.Add))).map
      (fun h => h.author_time))
  match creation_date with
  | some creation =>
    match first_date with
    | some f => if f < creation then none else some creation
    | none => some creation
  | none => none

/-- C6: for a non-empty history, `creation_date` is the minimum author time
`m` over `Add` entries, unless some entry has a strictly earlier author time
(or no `Add` entry exists), in which case it is `None`; consequently
`creation_date = Some t` implies no entry is earlier than `t`. -/
theorem c6_creation_date (history : List FileHistoryEntry)
    (hne : history ≠ []) :
    (listMin ((history.filter (fun h => decide (h.change = CommitChange.Add))).map
          (fun h => h.author_time)) = none →
        creationDate history = none)
    ∧ (∀ m, listMin
          ((history.filter (fun h => decide (h.change = CommitChange.Add))).map
            (fun h => h.author_time)) = some m →
        creationDate history =
          if ∃ e ∈ history, e.author_time < m then none else some m)
    ∧ (∀ t, creationDate history = some t → ∀ e ∈ history, t ≤ e.author_time) := by
  have hfd : ∃ f, listMin (history.map (fun h => h.author_time)) = some f := by
    cases hf : listMin (history.map (fun h => h.author_time)) with
    | none =>
      have := (listMin_eq_none_iff _).mp hf
      simp at this
      exact absurd this hne
    | some f => exact ⟨f, rfl⟩
  obtain ⟨f, hf⟩ := hfd
  refine ⟨?_, ?_, ?_⟩
  · intro h
    unfold creationDate
    rw [h]
  · intro m hm
    have hiff : (∃ e ∈ history, e.author_time < m) ↔ f < m := by
      constructor
      · intro ⟨e, he, hlt⟩
        have := listMin_le hf e.author_time (List.mem_map_of_mem _ he)
        omega
      · intro hlt
        obtain ⟨e, he, hfe⟩ := List.mem_map.mp (listMin_mem hf)
        exact ⟨e, he, by omega⟩
    unfold creationDate
    simp only [hm, hf]
    by_cases hc : f < m
    · rw [if_pos hc, if_pos (hiff.mpr hc)]
    · rw [if_neg hc, if_neg (fun hcon => hc (hiff.mp hcon))]
  · intro t ht e he
    unfold creationDate at ht
    cases hm : listMin
        ((history.filter (fun h => decide (h.change = CommitChange.Add))).map
          (fun h => h.author_time)) with
    | none => rw [hm] at ht; simp at ht
    | some m =>
      simp only [hm, hf] at ht
      by_cases hc : f < m
      · rw [if_pos hc] at ht; simp at ht
      · rw [if_neg hc] at ht
        simp at ht
        subst ht
        have h1 := listMin_le hf e.author_time (List.mem_map_of_mem _ he)
        omega

/-- Witness for C6: a single `Add` entry at author time 100 with a later
`Modify` at 200 yields creation date 100. -/
theorem c6_creation_date_witness :
    creationDate
        [⟨("a"), ⟨none, none⟩, 100, ⟨none, none⟩, 100, [], CommitChange.Add, 1, 0⟩,
          ⟨("b"), ⟨none, none⟩, 200, ⟨none, none⟩, 200, [], CommitChange.Modify, 1, 0⟩] =
      if ∃ e ∈
          [(⟨("a"), ⟨none, none⟩, 100, ⟨none, none⟩, 100, [], CommitChange.Add, 1, 0⟩ :
              FileHistoryEntry),
            ⟨("b"), ⟨none, none⟩, 200, ⟨none, none⟩, 200, [], CommitChange.Modify, 1, 0⟩],
          e.author_time < 100 then none else some 100 :=
  ((c6_creation_date
        [⟨("a"), ⟨none, none⟩, 100, ⟨none, none⟩, 100, [], CommitChange.Add, 1, 0⟩,
          ⟨("b"), ⟨none, none⟩, 200, ⟨none, none⟩, 200, [], CommitChange.Modify, 1, 0⟩]
        (by simp)).2.1) 100 (by decide)
  

/-! ## git.rs: the per-entry activity list (C7) -/

/-- Boolean strict order on optional strings matching the Rust derived
`Ord` on `Option<String>`: `None` sorts before `Some`. -/
def optStrLtb (a b : Option String) : Bool :=
  match a, b with
  | none, none => false
  | none, some _ => true
  | some _, none => false
  | some x, some y => decide (x < y)

/-- Boolean order matching the Rust derived `Ord` on `User`
(name first, then email). -/
def userLeb (u v : User) : Bool :=
  if u.name = v.name then !optStrLtb v.email u.email
  else optStrLtb u.name v.name

/-- Insertion step of a stable insertion sort. -/
def insertLe {α : Type} (le : α → α → Bool) (x : α) : List α → List α
  | [] => [x]
  | y :: ys => if le x y then x :: y :: ys else y :: insertLe le x ys

/-- Insertion sort (models `Vec::sort`). -/
def sortLe {α : Type} (le : α → α → Bool) (l : List α) : List α :=
  l.foldr (insertLe le) []

/-- Removes consecutive duplicates (models `Vec::dedup`). -/
def dedupAdj {α : Type} [DecidableEq α] : List α → List α
  | [] => []
  | [x] => [x]
  | x :: y :: rest =>
    if x = y then dedupAdj (y :: rest) else x :: dedupAdj (y :: rest)

/-- Ordered-set insertion (models collecting ids into a `BTreeSet<usize>`). -/
def insertNatSet (n : Nat) : List Nat → List Nat
  | [] => [n]
  | m :: rest =>
    if n < m then n :: m :: rest
    else if n = m then m :: rest
    else m :: insertNatSet n rest

/-- Embeds `GitHistories::unique_changers` (src/git.rs lines 188-202):
co-authors, author and committer, sorted, deduplicated, each registered in
the user dictionary; the resulting ids collected as an ordered set. -/
def uniqueChangers (d : GitUserDictionary) (entry : FileHistoryEntry) :
    List Nat × GitUserDictionary :=
  let users := dedupAdj (sortLe userLeb (entry.co_authors ++ [entry.author, entry.committer]))
  users.foldl
    (fun acc u =>
      let r := acc.2.register u
      (insertNatSet r.1 acc.1, r.2))
    ([], d)

/-- Embeds the `GitActivity` struct (src/git.rs lines 88-96); the
`BTreeSet<usize>` of user ids is modelled as a sorted duplicate-free list. -/
structure GitActivity where
  author_time : Nat
  commit_time : Nat
  users : List Nat
  change : CommitChange
  lines_added : Nat
  lines_deleted : Nat
  deriving DecidableEq, Repr

/-- One step of the `activity_vec` loop in `stats_from_history`
(src/git.rs lines 246-278, restricted to the activity thread): push one
`GitActivity` per entry, threading the user dictionary. -/
def activityStep (acc : List GitActivity × GitUserDictionary)
    (entry : FileHistoryEntry) : List GitActivity × GitUserDictionary :=
  let r := uniqueChangers acc.2 entry
  (acc.1 ++
      [⟨entry.author_time, entry.commit_time, r.1, entry.change,
        entry.lines_added, entry.lines_deleted⟩],
    r.2)

/-- The activity list built by `stats_from_history`: one entry per history
entry, in history order (the history itself is in topological log order). -/
def activityVec (d : GitUserDictionary) (history : List FileHistoryEntry) :
    List GitActivity × GitUserDictionary :=
  history.foldl activityStep ([], d)

theorem activityVec_fold_fields (history : List FileHistoryEntry) :
    ∀ (acc : List GitActivity) (d : GitUserDictionary),
      (history.foldl activityStep (acc, d)).1.map
          (fun a => (a.author_time, a.commit_time, a.change, a.lines_added,
            a.lines_deleted)) =
        acc.map (fun a => (a.author_time, a.commit_time, a.change,
          a.lines_added, a.lines_deleted)) ++
          history.map (fun e => (e.author_time, e.commit_time, e.change,
            e.lines_added, e.lines_deleted)) := by
  induction history with
  | nil => intro acc d; simp
  | cons e rest ih =>
    intro acc d
    rw [List.foldl_cons]
    show ((rest.foldl activityStep (activityStep (acc, d) e)).1.map _) = _
    rw [activityStep]
    rw [ih]
    simp

/-- C7 (amended): the activity list contains exactly one `GitActivity` per
history entry, in the order of the history entries, with matching author
time, commit time, change kind and line counts. -/
theorem c7_activity_one_per_entry (d : GitUserDictionary)
    (history : List FileHistoryEntry) :
    (activityVec d history).1.map
        (fun a => (a.author_time, a.commit_time, a.change, a.lines_added,
          a.lines_deleted)) =
      history.map (fun e => (e.author_time, e.commit_time, e.change,
        e.lines_added, e.lines_deleted))
    ∧ (activityVec d history).1.length = history.length := by
  have h := activityVec_fold_fields history [] d
  simp only [List.map_nil, List.nil_append] at h
  refine ⟨h, ?_⟩
  have := congrArg List.length h
  simpa using this

/-- C7 counterexample: a three-entry history in topological log order with
commit times 3, 5, 1 (possible in a real repository, since topological order
does not follow clock times) produces an activity list that is ordered
neither by ascending nor by descending commit time — the code never sorts
the activity list by commit time. -/
theorem c7_activity_not_sorted_counterexample :
    ((activityVec GitUserDictionary.new
          [⟨("a"), ⟨none, none⟩, 3, ⟨none, none⟩, 3, [], CommitChange.Modify, 1, 0⟩,
            ⟨("b"), ⟨none, none⟩, 5, ⟨none, none⟩, 5, [], CommitChange.Modify, 1, 0⟩,
            ⟨("c"), ⟨none, none⟩, 1, ⟨none, none⟩, 1, [], CommitChange.Modify, 1, 0⟩]).1.map
        (fun a => a.commit_time)) = [3, 5, 1]
    ∧ ¬ List.Chain' (fun a b => a ≤ b)
        ((activityVec GitUserDictionary.new
            [⟨("a"), ⟨none, none⟩, 3, ⟨none, none⟩, 3, [], CommitChange.Modify, 1, 0⟩,
              ⟨("b"), ⟨none, none⟩, 5, ⟨none, none⟩, 5, [], CommitChange.Modify, 1, 0⟩,
              ⟨("c"), ⟨none, none⟩, 1, ⟨none, none⟩, 1, [], CommitChange.Modify, 1, 0⟩]).1.map
          (fun a => a.commit_time))
    ∧ ¬ List.Chain' (fun a b => b ≤ a)
        ((activityVec GitUserDictionary.new
            [⟨("a"), ⟨none, none⟩, 3, ⟨none, none⟩, 3, [], CommitChange.Modify, 1, 0⟩,
              ⟨("b"), ⟨none, none⟩, 5, ⟨none, none⟩, 5, [], CommitChange.Modify, 1, 0⟩,
              ⟨("c"), ⟨none, none⟩, 1, ⟨none, none⟩, 1, [], CommitChange.Modify, 1, 0⟩]).1.map
          (fun a => a.commit_time)) := by
  refine ⟨rfl, ?_, ?_⟩ <;>
    · intro h
      have h2 : List.Chain' _ [3, 5, 1] := h
      rw [List.chain'_cons, List.chain'_cons] at h2
      omega

/-! ## git_logger.rs: co-author parsing (C9)

Commit messages are modelled as `List Char`.  The regex
`(?m)^\\s*Co-authored-by:(.*)$` is modelled line by line: a line whose
whitespace-stripped form starts with the literal `Co-authored-by:` captures
the rest of the line.  The regex `^(.*)<([^>]+)>$` (greedy `.*`) is modelled
by `angleCapture`, which scans from the right for the last `<` whose suffix
before the final `>` is nonempty and `>`-free. -/

def splitOnChar (sep : Char) : List Char → List (List Char)
  | [] => [[]]
  | c :: rest =>
    if c = sep then [] :: splitOnChar sep rest
    else
      match splitOnChar sep rest with
      | [] => [[c]]
      | line :: lines => (c :: line) :: lines

def startsWithList : List Char → List Char → Bool
  | [], _ => true
  | _ :: _, [] => false
  | p :: ps, c :: cs => if p = c then startsWithList ps cs else false

/-- The capture of `^\\s*Co-authored-by:(.*)$` on one line. -/
def lineCapture (line : List Char) : Option (List Char) :=
  let stripped := line.dropWhile (fun c => c.isWhitespace)
  if startsWithList (("Co-authored-by:").data) stripped then
    some (stripped.drop (("Co-authored-by:").data.length))
  else
    none

def trimChars (s : List Char) : List Char :=
  ((s.dropWhile (fun c => c.isWhitespace)).reverse.dropWhile
    (fun c => c.isWhitespace)).reverse

/-- Embeds `trim_string` (src/git_logger.rs lines 277-284): trim whitespace,
empty becomes `None`. -/
def trim_string (s : List Char) : Option (List Char) :=
  let trimmed := trimChars s
  if trimmed = [] then none else some trimmed

/-- The scan of the greedy `^(.*)<([^>]+)>$` match: the input is the
reversed text minus its final `>`; `acc` holds, in original order, the
characters between the scan position and that `>`. -/
def goAngle (acc : List Char) : List Char → Option (List Char × List Char)
  | [] => none
  | c :: rest =>
    if c = '<' ∧ acc ≠ [] ∧ '>' ∉ acc then some (rest.reverse, acc)
    else goAngle (c :: acc) rest

/-- The model of `CO_AUTH_ANGLE_BRACKETS.captures`: `some (name, email)` when
the text matches `^(.*)<([^>]+)>$` with greedy `.*`. -/
def angleCapture (text : List Char) : Option (List Char × List Char) :=
  match text.reverse with
  | c :: rest => if c = '>' then goAngle [] rest else none
  | [] => none

def mkOptStr (o : Option (List Char)) : Option String :=
  o.map (fun l => (⟨l⟩ : String))

/-- The per-line co-author computation (src/git_logger.rs lines 294-307). -/
def parseCoauthorText (text : List Char) : User :=
  match angleCapture text with
  | some ne => ⟨mkOptStr (trim_string ne.1), mkOptStr (trim_string ne.2)⟩
  | none =>
    if '@' ∈ text then ⟨none, mkOptStr (trim_string text)⟩
    else ⟨mkOptStr (trim_string text), none⟩

/-- Embeds `find_coauthors` (src/git_logger.rs lines 286-309). -/
def find_coauthors (message : List Char) : List User :=
  (splitOnChar (Char.ofNat 10) message).filterMap
    (fun line => (lineCapture line).map parseCoauthorText)

theorem angleCapture_eq_nil {text : List Char} (hr : text.reverse = []) :
    angleCapture text = none := by
  unfold angleCapture
  rw [hr]

theorem angleCapture_eq_cons {text : List Char} {c : Char} {rest : List Char}
    (hr : text.reverse = c :: rest) :
    angleCapture text = if c = '>' then goAngle [] rest else none := by
  unfold angleCapture
  rw [hr]

/-- The declarative reading of a `^(.*)<([^>]+)>$` match. -/
def IsAngleSplit (text n e : List Char) : Prop :=
  text = n ++ '<' :: (e ++ ['>']) ∧ e ≠ [] ∧ '>' ∉ e

theorem goAngle_sound (l : List Char) :
    ∀ acc n e, goAngle acc l = some (n, e) →
      l.reverse ++ acc = n ++ '<' :: e ∧ e ≠ [] ∧ '>' ∉ e := by
  induction l with
  | nil => intro acc n e h; simp [goAngle] at h
  | cons c rest ih =>
    intro acc n e h
    simp only [goAngle] at h
    by_cases hc : c = '<' ∧ acc ≠ [] ∧ '>' ∉ acc
    · rw [if_pos hc] at h
      obtain ⟨rfl, rfl⟩ : rest.reverse = n ∧ acc = e := by
        have h2 := Option.some.inj h
        exact ⟨congrArg Prod.fst h2, congrArg Prod.snd h2⟩
      exact ⟨by simp [hc.1], hc.2.1, hc.2.2⟩
    · rw [if_neg hc] at h
      have := ih (c :: acc) n e h
      refine ⟨?_, this.2.1, this.2.2⟩
      rw [← this.1]
      simp

theorem goAngle_complete (l : List Char) :
    ∀ acc, goAngle acc l = none →
      ∀ n e, n.length < l.length →
        ¬(l.reverse ++ acc = n ++ '<' :: e ∧ e ≠ [] ∧ '>' ∉ e) := by
  induction l with
  | nil => intro acc h n e hlen; simp at hlen
  | cons c rest ih =>
    intro acc h n e hlen hsplit
    simp only [goAngle] at h
    by_cases hc : c = '<' ∧ acc ≠ [] ∧ '>' ∉ acc
    · rw [if_pos hc] at h
      exact Option.noConfusion h
    · rw [if_neg hc] at h
      rcases Nat.lt_or_ge n.length rest.length with hlt | hge
      · refine ih (c :: acc) h n e hlt ⟨?_, hsplit.2.1, hsplit.2.2⟩
        rw [← hsplit.1]
        simp
      · have hlen2 : n.length = rest.length := by
          simp at hlen
          omega
        have heq : rest.reverse ++ (c :: acc) = n ++ ('<' :: e) := by
          simpa [List.append_assoc] using hsplit.1
        have hinj := List.append_inj heq (by simp [hlen2])
        obtain ⟨hc2, hacc⟩ := List.cons.inj hinj.2
        exact hc ⟨hc2, hacc ▸ hsplit.2.1, hacc ▸ hsplit.2.2⟩

theorem angleCapture_sound (text : List Char) {n e : List Char}
    (h : angleCapture text = some (n, e)) : IsAngleSplit text n e := by
  cases hr : text.reverse with
  | nil => rw [angleCapture_eq_nil hr] at h; exact Option.noConfusion h
  | cons c rest =>
    rw [angleCapture_eq_cons hr] at h
    by_cases hc : c = '>'
    · rw [if_pos hc] at h
      obtain ⟨h1, h2, h3⟩ := goAngle_sound rest [] n e h
      simp only [List.append_nil] at h1
      have htext : text = rest.reverse ++ [c] := by
        have := congrArg List.reverse hr
        simpa using this
      refine ⟨?_, h2, h3⟩
      rw [htext, h1, hc]
      simp
    · rw [if_neg hc] at h
      exact Option.noConfusion h

theorem angleCapture_complete (text : List Char)
    (h : angleCapture text = none) :
    ∀ n e, ¬ IsAngleSplit text n e := by
  intro n e ⟨hsplit, hne, hmem⟩
  cases hr : text.reverse with
  | nil =>
    have htext : text = [] := by simpa using congrArg List.reverse hr
    rw [htext] at hsplit
    exact absurd hsplit (by simp)
  | cons c rest =>
    rw [angleCapture_eq_cons hr] at h
    have htext : text = rest.reverse ++ [c] := by
      have := congrArg List.reverse hr
      simpa using this
    have hc : c = '>' := by
      have h1 : text.getLast? = some c := by
        rw [htext]
        simp [List.getLast?_append]
      have h2 : text.getLast? = some ('>') := by
        have ht2 : text = (n ++ '<' :: e) ++ ['>'] := by
          rw [hsplit]
          simp
        rw [ht2]
        exact List.getLast?_concat _
      rw [h1] at h2
      exact Option.some.inj h2
    rw [if_pos hc] at h
    have hstrip : rest.reverse = n ++ '<' :: e := by
      have htg : text = rest.reverse ++ ['>'] := by
        rw [htext, hc]
      have hmain : rest.reverse ++ ['>'] = (n ++ '<' :: e) ++ ['>'] := by
        rw [← htg, hsplit]
        simp
      exact (List.append_inj' hmain (by simp)).1
    have hlen : n.length < rest.length := by
      have := congrArg List.length hstrip
      simp at this
      omega
    exact goAngle_complete rest [] h n e hlen ⟨by simpa using hstrip, hne, hmem⟩

/-- C9: the co-author parser returns one user per `Co-authored-by:` line, in
line order; on each captured text it uses the angle-bracket split exactly
when one exists (name before the `<`, nonempty `>`-free email inside the
brackets before the final `>`); otherwise the whole text is an email when it
contains `@` and a name when not; components are whitespace-trimmed, empty
components becoming `None`. -/
theorem c9_find_coauthors_characterization (message text : List Char) :
    find_coauthors message =
      (splitOnChar (Char.ofNat 10) message).filterMap
        (fun line => (lineCapture line).map parseCoauthorText)
    ∧ (∀ n e, angleCapture text = some (n, e) →
        IsAngleSplit text n e ∧
          parseCoauthorText text =
            ⟨mkOptStr (trim_string n), mkOptStr (trim_string e)⟩)
    ∧ (angleCapture text = none →
        (∀ n e, ¬ IsAngleSplit text n e) ∧
          parseCoauthorText text =
            (if '@' ∈ text then ⟨none, mkOptStr (trim_string text)⟩
              else ⟨mkOptStr (trim_string text), none⟩))
    ∧ (trim_string text = none ↔ trimChars text = []) := by
  refine ⟨rfl, ?_, ?_, ?_⟩
  · intro n e h
    refine ⟨angleCapture_sound text h, ?_⟩
    unfold parseCoauthorText
    rw [h]
  · intro h
    refine ⟨angleCapture_complete text h, ?_⟩
    unfold parseCoauthorText
    rw [h]
  · unfold trim_string
    by_cases ht : trimChars text = [] <;> simp [ht]

/-- Witness for C9 on the text ` Jane <j@x>`: the angle split is found and
the parsed user is `(Jane, j@x)`. -/
theorem c9_find_coauthors_characterization_witness :
    IsAngleSplit ((" Jane <j@x>").data) ((" Jane ").data) (("j@x").data) ∧
      parseCoauthorText ((" Jane <j@x>").data) =
        ⟨mkOptStr (trim_string ((" Jane ").data)),
          mkOptStr (trim_string (("j@x").data))⟩ :=
  ((c9_find_coauthors_characterization [] ((" Jane <j@x>").data)).2.1
    ((" Jane ").data) (("j@x").data) (by decide))

end PolyglotScanner
